import Mathlib

/-!
Shallow embedding of the rotor-cipher engine of Odradex/edu-ai-challenge-2025.
The repository ships the engine's test suite (`src/6/test_enigma.js`) and a
bug-fix report quoting the fixed `encryptChar` method, but the engine file
`enigma.js` itself is not present under `src/`; components whose code is
missing are modelled from the specification (`spec.md`), as marked on each
definition.  Letters are represented by their indices 0–25; all machine
internals operate on indices, characters only at the `process` boundary.
-/

namespace Enigma

/-- Modelled from the spec: "(a - b) mod 26" on letter indices, total on `Nat`.
For `b < 26` this equals the mathematical `(a - b) mod 26`. -/
def submod (a b : Nat) : Nat := (a + (26 - b % 26)) % 26

/-- Modelled from the spec: a RotorDefinition — a 26-entry forward permutation
table (index to index) and one notch index.  The inverse table is derived from
the forward table by position lookup. -/
structure RotorDef where
  wiring : List Nat
  notch : Nat
deriving DecidableEq, Repr

/-- Modelled from the spec: the rotor catalogue ("historically, rotor types
I–V or similar").  Rotor I's wiring `EKMFLGDQVZNTOWYHXUSPAIBRCJ` and notch `Q`
are pinned by `src/6/test_enigma.js` line 160; rotors II and III and their
notches are the matching historical Enigma I tables. -/
def rotorI : RotorDef :=
  { wiring := [4,10,12,5,11,6,3,16,21,25,13,19,14,22,24,7,23,20,18,15,0,8,1,17,2,9]
    notch := 16 }

/-- Modelled from the spec: rotor II, wiring `AJDKSIRUXBLHWTMCQGZNPYFVOE`,
notch `E`. -/
def rotorII : RotorDef :=
  { wiring := [0,9,3,10,18,8,17,20,23,1,11,7,22,19,12,2,16,6,25,13,15,24,5,21,14,4]
    notch := 4 }

/-- Modelled from the spec: rotor III, wiring `BDFHJLCPRTXVZNYEIWGAKMUSQO`,
notch `V`. -/
def rotorIII : RotorDef :=
  { wiring := [1,3,5,7,9,11,2,15,17,19,23,21,25,13,24,4,8,22,6,0,10,12,20,18,16,14]
    notch := 21 }

/-- Modelled from the spec: the rotor-definition catalogue indexed by the
rotor-selection identifiers 0, 1, 2. -/
def ROTORS : List RotorDef := [rotorI, rotorII, rotorIII]

/-- Modelled from the spec: the single fixed reflector table, the historical
reflector B `YRUHQSLDPXNGOKMIEBFZCWVJAT` (involutive, no fixed point). -/
def REFLECTOR : List Nat :=
  [24,17,20,7,16,18,11,3,15,23,13,6,14,10,12,8,4,1,5,25,2,22,21,9,0,19]

/-- Modelled from the spec: `forward(letterIndex)` computes
`shiftedIn = (letterIndex + position - ringSetting) mod 26`, looks up
`out = forwardTable[shiftedIn]`, returns `(out - position + ringSetting) mod 26`. -/
def rotorForward (r : RotorDef) (ring pos x : Nat) : Nat :=
  submod (r.wiring.getD (submod (x + pos) ring) 0 + ring) pos

/-- Modelled from the spec: `backward(letterIndex)` — identical shifting
algebra with the inverse table (position lookup in the wiring) in place of
the forward table. -/
def rotorBackward (r : RotorDef) (ring pos x : Nat) : Nat :=
  submod (r.wiring.indexOf (submod (x + pos) ring) + ring) pos

/-- Modelled from the spec: the plugboard swap — if the letter is a member of
some pair return its partner, first matching pair wins, otherwise return the
letter unchanged.  Exposed as an independently testable pure function. -/
def plugboardSwap (c : Nat) : List (Nat × Nat) → Nat
  | [] => c
  | (a, b) :: rest =>
    if c = a then b else if c = b then a else plugboardSwap c rest

/-- Modelled from the spec: a machine configuration — three rotor instances in
left-to-right physical order, each with its ring setting, plus the plugboard
pair set.  The reflector is the single fixed table `REFLECTOR`. -/
structure Config where
  rotL : RotorDef
  rotM : RotorDef
  rotR : RotorDef
  ringL : Nat
  ringM : Nat
  ringR : Nat
  pairs : List (Nat × Nat)
deriving Repr

/-- Modelled from the spec: the machine's only mutable state — the three rotor
positions, kept within 0–25 by modular arithmetic. -/
structure Positions where
  posL : Nat
  posM : Nat
  posR : Nat
deriving DecidableEq, Repr

/-- Modelled from the spec: the stepping mechanism.  Snapshot both notch
predicates before any write, step the right rotor unconditionally, step the
middle rotor if the right rotor was at its notch, and if the middle rotor was
at its notch step it again and step the left rotor (double-stepping). -/
def stepRotors (cfg : Config) (p : Positions) : Positions :=
  let middleAtNotch : Bool := p.posM = cfg.rotM.notch
  let rightAtNotch : Bool := p.posR = cfg.rotR.notch
  let p1 : Positions := ⟨p.posL, p.posM, (p.posR + 1) % 26⟩
  let p2 : Positions := if rightAtNotch then ⟨p1.posL, (p1.posM + 1) % 26, p1.posR⟩ else p1
  if middleAtNotch then ⟨(p2.posL + 1) % 26, (p2.posM + 1) % 26, p2.posR⟩ else p2

/-- Rotor stack in construction order (left to right), each rotor with its
ring setting and current position. -/
def rotorStack (cfg : Config) (p : Positions) : List (RotorDef × Nat × Nat) :=
  [(cfg.rotL, cfg.ringL, p.posL), (cfg.rotM, cfg.ringM, p.posM), (cfg.rotR, cfg.ringR, p.posR)]

/-- Index-level body of `encryptChar` (source: the fixed `encryptChar` quoted
in the bug-fix report, `src/unnamed/part_003` lines 83–99): plugboard, then
each rotor's forward transform from the physically rightmost rotor to the
leftmost, the reflector, each rotor's backward transform from leftmost to
rightmost, then the plugboard a second time. -/
def encryptIndex (cfg : Config) (p : Positions) (c : Nat) : Nat :=
  let c1 := plugboardSwap c cfg.pairs
  let c2 := (rotorStack cfg p).reverse.foldl (fun a t => rotorForward t.1 t.2.1 t.2.2 a) c1
  let c3 := REFLECTOR.getD c2 0
  let c4 := (rotorStack cfg p).foldl (fun a t => rotorBackward t.1 t.2.1 t.2.2 a) c3
  plugboardSwap c4 cfg.pairs

/-- Per-character transform of the machine (source: `encryptChar` in
`src/unnamed/part_003` lines 83–99): non-alphabetic characters are returned
unchanged with no stepping; for a letter the rotors step first, then the
signal path runs on the stepped state. -/
def encryptChar (cfg : Config) (p : Positions) (c : Char) : Positions × Char :=
  if 65 ≤ c.toNat ∧ c.toNat ≤ 90 then
    let p2 := stepRotors cfg p
    (p2, Char.ofNat (encryptIndex cfg p2 (c.toNat - 65) + 65))
  else (p, c)

/-- State-threading fold of `encryptChar` over a character list. -/
def processList (cfg : Config) : Positions → List Char → Positions × List Char
  | p, [] => (p, [])
  | p, c :: cs =>
    let hd := encryptChar cfg p c
    let rest := processList cfg hd.1 cs
    (rest.1, hd.2 :: rest.2)

/-- Modelled from the spec: `process(text)` — uppercase the entire input, then
route each character through `encryptChar`, threading the rotor state. -/
def process (cfg : Config) (p : Positions) (text : String) : String :=
  String.mk (processList cfg p (text.data.map Char.toUpper)).2

/-- All letters mentioned by the plugboard pair list, in order. -/
def plugLetters : List (Nat × Nat) → List Nat
  | [] => []
  | (a, b) :: rest => a :: b :: plugLetters rest

/-- Modelled from the spec: the fail-fast constructor.  Detects, at
construction time, a rotor-count mismatch among the three configuration lists,
an unknown rotor-definition identifier, and a plugboard letter appearing in
two pairs; on any of these it returns an error and no machine. -/
def newEnigmaMachine (rotorIds positions rings : List Nat)
    (pairs : List (Nat × Nat)) : Except String (Config × Positions) :=
  if rotorIds.length ≠ positions.length ∨ rotorIds.length ≠ rings.length then
    Except.error "rotor selection, positions and ring settings must have equal length"
  else if ¬ rotorIds.all (fun i => i < ROTORS.length) then
    Except.error "unknown rotor identifier"
  else if ¬ (plugLetters pairs).Nodup then
    Except.error "a letter appears in two plugboard pairs"
  else
    match rotorIds, positions, rings with
    | [a, b, c], [pa, pb, pc], [ra, rb, rc] =>
      Except.ok
        (⟨ROTORS.getD a rotorI, ROTORS.getD b rotorI, ROTORS.getD c rotorI,
          ra, rb, rc, pairs⟩, ⟨pa, pb, pc⟩)
    | _, _, _ => Except.error "exactly three rotors are expected"

/-- A rotor definition whose wiring behaves as a permutation of 0–25 with the
position lookup as exact inverse. -/
def RotorOK (r : RotorDef) : Prop :=
  (∀ u, u < 26 → r.wiring.getD u 0 < 26) ∧
  (∀ u, u < 26 → r.wiring.indexOf (r.wiring.getD u 0) = u) ∧
  (∀ v, v < 26 → r.wiring.getD (r.wiring.indexOf v) 0 = v) ∧
  (∀ v, v < 26 → r.wiring.indexOf v < 26)

/-- A valid plugboard pair set: no letter appears twice, all letters in 0–25. -/
def PlugValid (pairs : List (Nat × Nat)) : Prop :=
  (plugLetters pairs).Nodup ∧ ∀ q ∈ pairs, q.1 < 26 ∧ q.2 < 26

/-- A valid machine configuration. -/
def ConfigOK (cfg : Config) : Prop :=
  RotorOK cfg.rotL ∧ RotorOK cfg.rotM ∧ RotorOK cfg.rotR ∧
  cfg.ringL < 26 ∧ cfg.ringM < 26 ∧ cfg.ringR < 26 ∧ PlugValid cfg.pairs

/-- Rotor positions within 0–25. -/
def PosOK (p : Positions) : Prop := p.posL < 26 ∧ p.posM < 26 ∧ p.posR < 26

/-- Modelled from the spec: the inverse (backward) table of a rotor
definition, "the exact inverse" of the forward table, derived at
construction by position lookup. -/
def invTable (r : RotorDef) : List Nat :=
  (List.range 26).map fun i => r.wiring.indexOf i

/-- Spec formula for `forward`, transcribed literally from §4.1 in integer
arithmetic with mathematical mod:
`(forwardTable[(letterIndex + position - ringSetting) mod 26] - position + ringSetting) mod 26`. -/
def rotorForwardSpec (r : RotorDef) (ring pos x : Int) : Int :=
  ((r.wiring.getD ((x + pos - ring) % 26).toNat 0 : Int) - pos + ring) % 26

/-- Spec formula for `backward`, §4.1: identical shifting algebra with the
inverse table in place of the forward table. -/
def rotorBackwardSpec (r : RotorDef) (ring pos x : Int) : Int :=
  (((invTable r).getD ((x + pos - ring) % 26).toNat 0 : Int) - pos + ring) % 26

/-- Sample machine used by concrete witnesses: rotors I, II, III, all
positions and ring settings 0, plugboard pairs A-B and C-D. -/
def sampleConfig : Config :=
  ⟨rotorI, rotorII, rotorIII, 0, 0, 0, [(0, 1), (2, 3)]⟩

/-- Sample starting positions used by concrete witnesses. -/
def samplePos : Positions := ⟨0, 0, 0⟩

theorem submod_lt (a b : Nat) : submod a b < 26 := Nat.mod_lt _ (by norm_num)

theorem submod_cancel (a b c : Nat) : submod (submod (a + b) c + c) b = a % 26 := by
  unfold submod
  omega

theorem rotorForward_lt (r : RotorDef) (ring pos x : Nat) :
    rotorForward r ring pos x < 26 := submod_lt _ _

theorem rotorBackward_lt (r : RotorDef) (ring pos x : Nat) :
    rotorBackward r ring pos x < 26 := submod_lt _ _

theorem rotorBackward_rotorForward (r : RotorDef) (ring pos x : Nat) (hr : RotorOK r)
    (hx : x < 26) : rotorBackward r ring pos (rotorForward r ring pos x) = x := by
  have hu : submod (x + pos) ring < 26 := submod_lt _ _
  unfold rotorForward rotorBackward
  rw [submod_cancel, Nat.mod_eq_of_lt (hr.1 _ hu), hr.2.1 _ hu, submod_cancel,
    Nat.mod_eq_of_lt hx]

theorem rotorForward_rotorBackward (r : RotorDef) (ring pos x : Nat) (hr : RotorOK r)
    (hx : x < 26) : rotorForward r ring pos (rotorBackward r ring pos x) = x := by
  have hu : submod (x + pos) ring < 26 := submod_lt _ _
  unfold rotorForward rotorBackward
  rw [submod_cancel, Nat.mod_eq_of_lt (hr.2.2.2 _ hu), hr.2.2.1 _ hu, submod_cancel,
    Nat.mod_eq_of_lt hx]

theorem rotorI_ok : RotorOK rotorI := by
  unfold RotorOK; refine ⟨?_, ?_, ?_, ?_⟩ <;> decide

theorem rotorII_ok : RotorOK rotorII := by
  unfold RotorOK; refine ⟨?_, ?_, ?_, ?_⟩ <;> decide

theorem rotorIII_ok : RotorOK rotorIII := by
  unfold RotorOK; refine ⟨?_, ?_, ?_, ?_⟩ <;> decide

theorem reflector_reflector : ∀ x, x < 26 →
    REFLECTOR.getD (REFLECTOR.getD x 0) 0 = x := by decide

theorem reflector_lt : ∀ x, x < 26 → REFLECTOR.getD x 0 < 26 := by decide

theorem reflector_ne : ∀ x, x < 26 → REFLECTOR.getD x 0 ≠ x := by decide

theorem mem_plugLetters_of_mem {pairs : List (Nat × Nat)} {a b : Nat}
    (h : (a, b) ∈ pairs) : a ∈ plugLetters pairs ∧ b ∈ plugLetters pairs := by
  induction pairs with
  | nil => simp at h
  | cons q rest ih =>
    obtain ⟨x, y⟩ := q
    simp only [plugLetters, List.mem_cons]
    rcases List.mem_cons.mp h with heq | hmem
    · cases heq
      exact ⟨Or.inl rfl, Or.inr (Or.inl rfl)⟩
    · exact ⟨Or.inr (Or.inr (ih hmem).1), Or.inr (Or.inr (ih hmem).2)⟩

theorem plugboardSwap_eq_or_mem (c : Nat) (pairs : List (Nat × Nat)) :
    plugboardSwap c pairs = c ∨ plugboardSwap c pairs ∈ plugLetters pairs := by
  induction pairs with
  | nil => exact Or.inl rfl
  | cons q rest ih =>
    obtain ⟨a, b⟩ := q
    by_cases h1 : c = a
    · simp [plugboardSwap, plugLetters, h1]
    · by_cases h2 : c = b
      · simp [plugboardSwap, plugLetters, h1, h2]
      · simp only [plugboardSwap, plugLetters, if_neg h1, if_neg h2, List.mem_cons]
        rcases ih with h | h
        · exact Or.inl h
        · exact Or.inr (Or.inr (Or.inr h))

theorem plugboardSwap_not_mem (c : Nat) (pairs : List (Nat × Nat))
    (h : c ∉ plugLetters pairs) : plugboardSwap c pairs = c := by
  induction pairs with
  | nil => rfl
  | cons q rest ih =>
    obtain ⟨a, b⟩ := q
    simp only [plugLetters, List.mem_cons, not_or] at h
    simp [plugboardSwap, h.1, h.2.1, ih h.2.2]

theorem plugboardSwap_pair {pairs : List (Nat × Nat)}
    (hnd : (plugLetters pairs).Nodup) {a b : Nat} (h : (a, b) ∈ pairs) :
    plugboardSwap a pairs = b ∧ plugboardSwap b pairs = a := by
  induction pairs with
  | nil => simp at h
  | cons q rest ih =>
    obtain ⟨x, y⟩ := q
    simp only [plugLetters, List.nodup_cons, List.mem_cons, not_or] at hnd
    obtain ⟨⟨hxy, hxL⟩, hyL, hL⟩ := hnd
    rcases List.mem_cons.mp h with heq | hmem
    · cases heq
      exact ⟨by simp [plugboardSwap], by simp [plugboardSwap, Ne.symm hxy]⟩
    · have hmemL := mem_plugLetters_of_mem hmem
      have hax : a ≠ x := fun e => hxL (e ▸ hmemL.1)
      have hay : a ≠ y := fun e => hyL (e ▸ hmemL.1)
      have hbx : b ≠ x := fun e => hxL (e ▸ hmemL.2)
      have hby : b ≠ y := fun e => hyL (e ▸ hmemL.2)
      have := ih hL hmem
      exact ⟨by simp [plugboardSwap, hax, hay, this.1],
        by simp [plugboardSwap, hbx, hby, this.2]⟩

theorem plugboardSwap_invol (c : Nat) (pairs : List (Nat × Nat))
    (hnd : (plugLetters pairs).Nodup) :
    plugboardSwap (plugboardSwap c pairs) pairs = c := by
  induction pairs with
  | nil => rfl
  | cons q rest ih =>
    obtain ⟨a, b⟩ := q
    simp only [plugLetters, List.nodup_cons, List.mem_cons, not_or] at hnd
    obtain ⟨⟨hab, haL⟩, hbL, hL⟩ := hnd
    by_cases h1 : c = a
    · subst h1
      simp [plugboardSwap, Ne.symm hab]
    · by_cases h2 : c = b
      · subst h2
        simp [plugboardSwap, h1]
      · have e1 : plugboardSwap c ((a, b) :: rest) = plugboardSwap c rest := by
          simp [plugboardSwap, h1, h2]
        have hd := plugboardSwap_eq_or_mem c rest
        have hda : plugboardSwap c rest ≠ a := by
          rcases hd with h | h
          · rw [h]; exact h1
          · exact fun e => haL (e ▸ h)
        have hdb : plugboardSwap c rest ≠ b := by
          rcases hd with h | h
          · rw [h]; exact h2
          · exact fun e => hbL (e ▸ h)
        rw [e1]
        simp [plugboardSwap, hda, hdb, ih hL]

theorem plugboardSwap_lt (c : Nat) (pairs : List (Nat × Nat))
    (hb : ∀ q ∈ pairs, q.1 < 26 ∧ q.2 < 26) (hc : c < 26) :
    plugboardSwap c pairs < 26 := by
  induction pairs with
  | nil => exact hc
  | cons q rest ih =>
    obtain ⟨a, b⟩ := q
    have h1 := hb (a, b) (by simp)
    have h2 : ∀ q ∈ rest, q.1 < 26 ∧ q.2 < 26 := fun q hq => hb q (by simp [hq])
    by_cases e1 : c = a
    · simpa [plugboardSwap, e1] using h1.2
    · by_cases e2 : c = b
      · subst e2
        simpa [plugboardSwap, e1] using h1.1
      · simpa [plugboardSwap, e1, e2] using ih h2

theorem encryptIndex_eq (cfg : Config) (p : Positions) (c : Nat) :
    encryptIndex cfg p c =
      plugboardSwap
        (rotorBackward cfg.rotR cfg.ringR p.posR
          (rotorBackward cfg.rotM cfg.ringM p.posM
            (rotorBackward cfg.rotL cfg.ringL p.posL
              (REFLECTOR.getD
                (rotorForward cfg.rotL cfg.ringL p.posL
                  (rotorForward cfg.rotM cfg.ringM p.posM
                    (rotorForward cfg.rotR cfg.ringR p.posR
                      (plugboardSwap c cfg.pairs)))) 0))))
        cfg.pairs := rfl

theorem encryptIndex_lt (cfg : Config) (p : Positions) (c : Nat)
    (hb : ∀ q ∈ cfg.pairs, q.1 < 26 ∧ q.2 < 26) : encryptIndex cfg p c < 26 := by
  rw [encryptIndex_eq]
  exact plugboardSwap_lt _ _ hb (rotorBackward_lt _ _ _ _)

theorem encryptIndex_invol (cfg : Config) (p : Positions) (hcfg : ConfigOK cfg)
    (c : Nat) (hc : c < 26) : encryptIndex cfg p (encryptIndex cfg p c) = c := by
  obtain ⟨hL, hM, hR, -, -, -, hpv⟩ := hcfg
  have hnd := hpv.1
  rw [encryptIndex_eq, encryptIndex_eq]
  rw [plugboardSwap_invol _ _ hnd]
  rw [rotorForward_rotorBackward _ _ _ _ hR (rotorBackward_lt _ _ _ _)]
  rw [rotorForward_rotorBackward _ _ _ _ hM (rotorBackward_lt _ _ _ _)]
  rw [rotorForward_rotorBackward _ _ _ _ hL (reflector_lt _ (rotorForward_lt _ _ _ _))]
  rw [reflector_reflector _ (rotorForward_lt _ _ _ _)]
  rw [rotorBackward_rotorForward _ _ _ _ hL (rotorForward_lt _ _ _ _)]
  rw [rotorBackward_rotorForward _ _ _ _ hM (rotorForward_lt _ _ _ _)]
  rw [rotorBackward_rotorForward _ _ _ _ hR (plugboardSwap_lt _ _ hpv.2 hc)]
  exact plugboardSwap_invol _ _ hnd

theorem encryptIndex_ne (cfg : Config) (p : Positions) (hcfg : ConfigOK cfg)
    (c : Nat) : encryptIndex cfg p c ≠ c := by
  obtain ⟨hL, hM, hR, -, -, -, hpv⟩ := hcfg
  have hnd := hpv.1
  rw [encryptIndex_eq]
  intro h
  have h1 := congrArg (fun z => plugboardSwap z cfg.pairs) h
  simp only [plugboardSwap_invol _ _ hnd] at h1
  have h2 := congrArg (rotorForward cfg.rotR cfg.ringR p.posR) h1
  rw [rotorForward_rotorBackward _ _ _ _ hR (rotorBackward_lt _ _ _ _)] at h2
  have h3 := congrArg (rotorForward cfg.rotM cfg.ringM p.posM) h2
  rw [rotorForward_rotorBackward _ _ _ _ hM (rotorBackward_lt _ _ _ _)] at h3
  have h4 := congrArg (rotorForward cfg.rotL cfg.ringL p.posL) h3
  rw [rotorForward_rotorBackward _ _ _ _ hL (reflector_lt _ (rotorForward_lt _ _ _ _))] at h4
  exact reflector_ne _ (rotorForward_lt _ _ _ _) h4

theorem stepRotors_eq (cfg : Config) (p : Positions) (hp : PosOK p) :
    stepRotors cfg p =
      ⟨if p.posM = cfg.rotM.notch then (p.posL + 1) % 26 else p.posL,
        (p.posM + ((if p.posR = cfg.rotR.notch then 1 else 0) +
          (if p.posM = cfg.rotM.notch then 1 else 0))) % 26,
        (p.posR + 1) % 26⟩ := by
  obtain ⟨-, hm, -⟩ := hp
  unfold stepRotors
  by_cases h1 : p.posM = cfg.rotM.notch <;> by_cases h2 : p.posR = cfg.rotR.notch <;>
    simp [h1, h2, Positions.mk.injEq] <;> omega

theorem stepRotors_posOK (cfg : Config) (p : Positions) (hp : PosOK p) :
    PosOK (stepRotors cfg p) := by
  obtain ⟨hl, hm, hr⟩ := hp
  unfold stepRotors PosOK
  by_cases h1 : p.posM = cfg.rotM.notch <;> by_cases h2 : p.posR = cfg.rotR.notch <;>
    simp [h1, h2] <;> omega

theorem char_toNat_ofNat {n : Nat} (h : n < 55296) : (Char.ofNat n).toNat = n := by
  have hv : n.isValidChar := Or.inl h
  rw [Char.ofNat, dif_pos hv]
  simp [Char.ofNatAux, Char.toNat, UInt32.toNat]

theorem char_toNat_inj {c d : Char} (h : c.toNat = d.toNat) : c = d := by
  rw [← Char.ofNat_toNat c, ← Char.ofNat_toNat d, h]

theorem toNat_toUpper (c : Char) :
    (Char.toUpper c).toNat =
      if 97 ≤ c.toNat ∧ c.toNat ≤ 122 then c.toNat - 32 else c.toNat := by
  unfold Char.toUpper
  by_cases h : c.toNat ≥ 97 ∧ c.toNat ≤ 122
  · rw [if_pos h, if_pos ⟨h.1, h.2⟩, char_toNat_ofNat (by omega)]
  · rw [if_neg h, if_neg fun hc => h ⟨hc.1, hc.2⟩]

theorem toUpper_of_not_lower {c : Char} (h : ¬(97 ≤ c.toNat ∧ c.toNat ≤ 122)) :
    Char.toUpper c = c := by
  unfold Char.toUpper
  rw [if_neg fun hc => h ⟨hc.1, hc.2⟩]

theorem encryptChar_alpha (cfg : Config) (p : Positions) {c : Char}
    (h : 65 ≤ c.toNat ∧ c.toNat ≤ 90) :
    encryptChar cfg p c =
      (stepRotors cfg p,
        Char.ofNat (encryptIndex cfg (stepRotors cfg p) (c.toNat - 65) + 65)) := by
  unfold encryptChar
  rw [if_pos h]

theorem encryptChar_other (cfg : Config) (p : Positions) {c : Char}
    (h : ¬(65 ≤ c.toNat ∧ c.toNat ≤ 90)) : encryptChar cfg p c = (p, c) := by
  unfold encryptChar
  rw [if_neg h]

theorem processList_cons (cfg : Config) (p : Positions) (c : Char) (cs : List Char) :
    processList cfg p (c :: cs) =
      ((processList cfg (encryptChar cfg p c).1 cs).1,
        (encryptChar cfg p c).2 :: (processList cfg (encryptChar cfg p c).1 cs).2) := rfl

theorem processList_length (cfg : Config) (l : List Char) :
    ∀ p : Positions, (processList cfg p l).2.length = l.length := by
  induction l with
  | nil => intro p; rfl
  | cons c cs ih => intro p; rw [processList_cons]; simp [ih]

theorem processList_append (cfg : Config) (xs ys : List Char) :
    ∀ p : Positions,
      processList cfg p (xs ++ ys) =
        ((processList cfg (processList cfg p xs).1 ys).1,
          (processList cfg p xs).2 ++ (processList cfg (processList cfg p xs).1 ys).2) := by
  induction xs with
  | nil => intro p; rfl
  | cons c cs ih =>
    intro p
    rw [List.cons_append, processList_cons, processList_cons, ih]
    simp

theorem processList_roundtrip (cfg : Config) (hcfg : ConfigOK cfg) (l : List Char) :
    ∀ p : Positions, PosOK p →
      processList cfg p (processList cfg p l).2 = ((processList cfg p l).1, l) := by
  have hpv : PlugValid cfg.pairs := hcfg.2.2.2.2.2.2
  induction l with
  | nil => intro p hp; rfl
  | cons c cs ih =>
    intro p hp
    by_cases hca : 65 ≤ c.toNat ∧ c.toNat ≤ 90
    · rw [processList_cons, encryptChar_alpha cfg p hca]
      have he : encryptIndex cfg (stepRotors cfg p) (c.toNat - 65) < 26 :=
        encryptIndex_lt _ _ _ hpv.2
      have hd : (Char.ofNat (encryptIndex cfg (stepRotors cfg p) (c.toNat - 65) + 65)).toNat
          = encryptIndex cfg (stepRotors cfg p) (c.toNat - 65) + 65 :=
        char_toNat_ofNat (by omega)
      rw [processList_cons, encryptChar_alpha cfg p (by rw [hd]; omega)]
      rw [hd]
      have h65 : encryptIndex cfg (stepRotors cfg p) (c.toNat - 65) + 65 - 65
          = encryptIndex cfg (stepRotors cfg p) (c.toNat - 65) := by omega
      rw [h65]
      rw [encryptIndex_invol cfg (stepRotors cfg p) hcfg _ (by omega)]
      have hc2 : Char.ofNat (c.toNat - 65 + 65) = c := by
        have h' : c.toNat - 65 + 65 = c.toNat := by omega
        rw [h', Char.ofNat_toNat]
      rw [hc2]
      simp [ih (stepRotors cfg p) (stepRotors_posOK cfg p hp)]
    · rw [processList_cons, encryptChar_other cfg p hca,
        processList_cons, encryptChar_other cfg p hca]
      simp [ih p hp]

theorem processList_output_upper (cfg : Config)
    (hb : ∀ q ∈ cfg.pairs, q.1 < 26 ∧ q.2 < 26) (l : List Char) :
    ∀ p : Positions, (∀ c ∈ l, ¬(97 ≤ c.toNat ∧ c.toNat ≤ 122)) →
      ∀ d ∈ (processList cfg p l).2, ¬(97 ≤ d.toNat ∧ d.toNat ≤ 122) := by
  induction l with
  | nil => intro p _ d hd; simp [processList] at hd
  | cons c cs ih =>
    intro p hl d hd
    rw [processList_cons] at hd
    rcases List.mem_cons.mp hd with hd | hd
    · subst hd
      by_cases hca : 65 ≤ c.toNat ∧ c.toNat ≤ 90
      · rw [encryptChar_alpha cfg p hca]
        have he : encryptIndex cfg (stepRotors cfg p) (c.toNat - 65) < 26 :=
          encryptIndex_lt _ _ _ hb
        rw [char_toNat_ofNat (by omega)]
        omega
      · rw [encryptChar_other cfg p hca]
        exact hl c (List.mem_cons_self _ _)
    · exact ih (encryptChar cfg p c).1 (fun x hx => hl x (List.mem_cons_of_mem _ hx)) d hd

theorem map_toUpper_id {l : List Char} (h : ∀ c ∈ l, ¬(97 ≤ c.toNat ∧ c.toNat ≤ 122)) :
    l.map Char.toUpper = l := by
  induction l with
  | nil => rfl
  | cons c cs ih =>
    rw [List.map_cons, toUpper_of_not_lower (h c (List.mem_cons_self _ _)),
      ih fun x hx => h x (List.mem_cons_of_mem _ hx)]

theorem invTable_getD (r : RotorDef) (u : Nat) (hu : u < 26) :
    (invTable r).getD u 0 = r.wiring.indexOf u := by
  unfold invTable
  rw [List.getD_eq_getElem?_getD, List.getElem?_map, List.getElem?_range hu]
  rfl

theorem toUpper_toUpper (c : Char) : Char.toUpper (Char.toUpper c) = Char.toUpper c := by
  by_cases h : 97 ≤ c.toNat ∧ c.toNat ≤ 122
  · apply toUpper_of_not_lower
    rw [toNat_toUpper, if_pos h]
    omega
  · rw [toUpper_of_not_lower h]
    exact toUpper_of_not_lower h

theorem sampleConfig_ok : ConfigOK sampleConfig :=
  ⟨rotorI_ok, rotorII_ok, rotorIII_ok, by decide, by decide, by decide,
    by decide, by intro q hq; fin_cases hq <;> exact ⟨by decide, by decide⟩⟩

theorem samplePos_ok : PosOK samplePos := ⟨by decide, by decide, by decide⟩

/-- C1: Symmetric round-trip — for every valid configuration (any three
rotors whose wiring is a permutation of 0–25, any ring settings and starting
positions in 0–25, any valid plugboard pair set, empty or not) and every text
of uppercase letters and non-alphabetic characters, encrypting on one machine
and processing the ciphertext on a second machine with the same configuration
and the same unadvanced starting positions returns exactly the original text. -/
theorem C1_symmetric_roundtrip (cfg : Config) (p : Positions) (hcfg : ConfigOK cfg)
    (hp : PosOK p) (s : String)
    (hs : ∀ c ∈ s.data, ¬(97 ≤ c.toNat ∧ c.toNat ≤ 122)) :
    process cfg p (process cfg p s) = s := by
  unfold process
  rw [map_toUpper_id hs]
  show String.mk (processList cfg p ((processList cfg p s.data).2.map Char.toUpper)).2 = s
  rw [map_toUpper_id
    (fun d hd => processList_output_upper cfg (hcfg.2.2.2.2.2.2).2 s.data p hs d hd)]
  rw [processList_roundtrip cfg hcfg s.data p hp]

/-- Witness for C1: rotors I, II, III, zero positions and rings, plugboard
pairs A-B and C-D, text HELLO round-trips. -/
theorem C1_symmetric_roundtrip_witness :
    ConfigOK sampleConfig ∧ PosOK samplePos ∧
      (∀ c ∈ "HELLO".data, ¬(97 ≤ c.toNat ∧ c.toNat ≤ 122)) ∧
      process sampleConfig samplePos (process sampleConfig samplePos "HELLO") = "HELLO" :=
  ⟨sampleConfig_ok, samplePos_ok, by decide,
    C1_symmetric_roundtrip sampleConfig samplePos sampleConfig_ok samplePos_ok
      "HELLO" (by decide)⟩

/-- C2: Signal-path order with double plugboard application — for an
alphabetic character the per-character transform is exactly: plugboard swap,
the rotors' forward transforms from the physically rightmost rotor to the
leftmost, the reflector, the rotors' backward transforms from leftmost to
rightmost, and the plugboard swap a second time, all on the state stepped for
this character. -/
theorem C2_signal_path_order (cfg : Config) (p : Positions) (c : Char)
    (hca : 65 ≤ c.toNat ∧ c.toNat ≤ 90) :
    (encryptChar cfg p c).2 =
      Char.ofNat
        (plugboardSwap
          (rotorBackward cfg.rotR cfg.ringR (stepRotors cfg p).posR
            (rotorBackward cfg.rotM cfg.ringM (stepRotors cfg p).posM
              (rotorBackward cfg.rotL cfg.ringL (stepRotors cfg p).posL
                (REFLECTOR.getD
                  (rotorForward cfg.rotL cfg.ringL (stepRotors cfg p).posL
                    (rotorForward cfg.rotM cfg.ringM (stepRotors cfg p).posM
                      (rotorForward cfg.rotR cfg.ringR (stepRotors cfg p).posR
                        (plugboardSwap (c.toNat - 65) cfg.pairs)))) 0))))
          cfg.pairs + 65) := by
  rw [encryptChar_alpha cfg p hca, encryptIndex_eq]

/-- Witness for C2: on the sample machine the first character A encrypts to B
(plugboard at entry and exit, full rotor-reflector path in between). -/
theorem C2_signal_path_order_witness :
    (65 ≤ 'A'.toNat ∧ 'A'.toNat ≤ 90) ∧
      (encryptChar sampleConfig samplePos 'A').2 = 'B' :=
  ⟨by decide, by
    have h := C2_signal_path_order sampleConfig samplePos 'A' (by decide)
    rw [h]; decide⟩

/-- C3: Stepping mechanism with double-stepping — on an alphabetic character
the rotors step strictly before the signal path runs (the output letter is
computed on the stepped state), and one advancement cycle reads both notch
predicates on the pre-step positions: the right rotor always advances by one;
the middle rotor advances by one when the right rotor was at its notch plus
one more when the middle rotor itself was at its notch (so it advances twice
in a single cycle when both hold); the left rotor advances exactly when the
middle rotor was at its notch. -/
theorem C3_stepping (cfg : Config) (p : Positions) (hp : PosOK p) (c : Char)
    (hca : 65 ≤ c.toNat ∧ c.toNat ≤ 90) :
    encryptChar cfg p c =
      (stepRotors cfg p,
        Char.ofNat (encryptIndex cfg (stepRotors cfg p) (c.toNat - 65) + 65)) ∧
    stepRotors cfg p =
      ⟨if p.posM = cfg.rotM.notch then (p.posL + 1) % 26 else p.posL,
        (p.posM + ((if p.posR = cfg.rotR.notch then 1 else 0) +
          (if p.posM = cfg.rotM.notch then 1 else 0))) % 26,
        (p.posR + 1) % 26⟩ :=
  ⟨encryptChar_alpha cfg p hca, stepRotors_eq cfg p hp⟩

/-- Witness for C3 at the double-stepping state: middle rotor II at its notch
4 and right rotor III at its notch 21, so the middle rotor advances twice
(4 to 6) and the left rotor advances (0 to 1). -/
theorem C3_stepping_witness :
    PosOK ⟨0, 4, 21⟩ ∧ (65 ≤ 'A'.toNat ∧ 'A'.toNat ≤ 90) ∧
      stepRotors sampleConfig ⟨0, 4, 21⟩ = ⟨1, 6, 22⟩ :=
  ⟨⟨by decide, by decide, by decide⟩, by decide, by
    have h := (C3_stepping sampleConfig ⟨0, 4, 21⟩
      ⟨by decide, by decide, by decide⟩ 'A' (by decide)).2
    rw [h]; decide⟩

/-- C4: Rotor transform algebra — on in-range arguments the rotor transforms
compute exactly the spec's integer formulas
`(forwardTable[(letterIndex + position - ringSetting) mod 26] - position + ringSetting) mod 26`
and the identical algebra with the inverse table for `backward`. -/
theorem C4_rotor_algebra (r : RotorDef) (ring pos x : Nat)
    (hring : ring < 26) (hpos : pos < 26) (hx : x < 26) :
    (rotorForward r ring pos x : Int) = rotorForwardSpec r ring pos x ∧
    (rotorBackward r ring pos x : Int) = rotorBackwardSpec r ring pos x := by
  have hidx : (((x : Int) + pos - ring) % 26).toNat = submod (x + pos) ring := by
    unfold submod
    omega
  constructor
  · unfold rotorForward rotorForwardSpec
    rw [hidx]
    unfold submod
    omega
  · unfold rotorBackward rotorBackwardSpec
    rw [hidx, invTable_getD r _ (submod_lt _ _)]
    unfold submod
    omega

/-- Witness for C4: rotor I with ring setting 1, position 2, letter 3. -/
theorem C4_rotor_algebra_witness :
    ((1 : Nat) < 26 ∧ (2 : Nat) < 26 ∧ (3 : Nat) < 26) ∧
      (rotorForward rotorI 1 2 3 : Int) = rotorForwardSpec rotorI 1 2 3 ∧
      (rotorBackward rotorI 1 2 3 : Int) = rotorBackwardSpec rotorI 1 2 3 :=
  ⟨⟨by decide, by decide, by decide⟩,
    C4_rotor_algebra rotorI 1 2 3 (by decide) (by decide) (by decide)⟩

/-- C5: Pass-through frame condition — a non-alphabetic character is output
unchanged with rotor positions untouched, and inserting it anywhere in the
input changes neither the final rotor state nor any other output character:
the outputs with and without the interleaved character share the same prefix
and the same rotor-dependent tail. -/
theorem C5_passthrough (cfg : Config) (p : Positions) (c : Char)
    (xs ys : List Char) (hc : ¬(65 ≤ c.toNat ∧ c.toNat ≤ 90)) :
    encryptChar cfg p c = (p, c) ∧
    (processList cfg p (xs ++ c :: ys)).1 = (processList cfg p (xs ++ ys)).1 ∧
    (processList cfg p (xs ++ c :: ys)).2 =
      (processList cfg p xs).2 ++ c :: (processList cfg (processList cfg p xs).1 ys).2 ∧
    (processList cfg p (xs ++ ys)).2 =
      (processList cfg p xs).2 ++ (processList cfg (processList cfg p xs).1 ys).2 := by
  refine ⟨encryptChar_other cfg p hc, ?_, ?_, ?_⟩
  · rw [processList_append, processList_append, processList_cons,
      encryptChar_other cfg _ hc]
  · rw [processList_append, processList_cons, encryptChar_other cfg _ hc]
  · rw [processList_append]

/-- Witness for C5: a space inserted between A and B passes through unchanged
and leaves the state and the letter outputs as without it. -/
theorem C5_passthrough_witness :
    ¬(65 ≤ ' '.toNat ∧ ' '.toNat ≤ 90) ∧
      encryptChar sampleConfig samplePos ' ' = (samplePos, ' ') ∧
      (processList sampleConfig samplePos (['A'] ++ ' ' :: ['B'])).1 =
        (processList sampleConfig samplePos (['A'] ++ ['B'])).1 :=
  ⟨by decide,
    (C5_passthrough sampleConfig samplePos ' ' ['A'] ['B'] (by decide)).1,
    (C5_passthrough sampleConfig samplePos ' ' ['A'] ['B'] (by decide)).2.1⟩

/-- C6: Plugboard involution — for every valid set of disjoint pairs the swap
is an involution on all letters; each pair member maps to its partner and
every unpaired letter maps to itself. -/
theorem C6_plugboard_involution (pairs : List (Nat × Nat)) (hv : PlugValid pairs) :
    (∀ c : Nat, plugboardSwap (plugboardSwap c pairs) pairs = c) ∧
    (∀ q ∈ pairs, plugboardSwap q.1 pairs = q.2 ∧ plugboardSwap q.2 pairs = q.1) ∧
    (∀ c : Nat, c ∉ plugLetters pairs → plugboardSwap c pairs = c) :=
  ⟨fun c => plugboardSwap_invol c pairs hv.1,
    fun q hq => plugboardSwap_pair hv.1 (by rw [Prod.mk.eta]; exact hq),
    fun c hc => plugboardSwap_not_mem c pairs hc⟩

/-- Witness for C6 on the pairs A-B, C-D applied to the letter A. -/
theorem C6_plugboard_involution_witness :
    PlugValid [(0, 1), (2, 3)] ∧
      plugboardSwap (plugboardSwap 0 [(0, 1), (2, 3)]) [(0, 1), (2, 3)] = 0 :=
  ⟨⟨by decide, by decide⟩,
    (C6_plugboard_involution [(0, 1), (2, 3)] ⟨by decide, by decide⟩).1 0⟩

/-- C7: Fail-fast construction — a rotor-count mismatch among the three
configuration lists, an unknown rotor-definition identifier, or a plugboard
letter appearing in two pairs makes the constructor return an error
synchronously; no machine is produced. -/
theorem C7_failfast_construction (rotorIds positions rings : List Nat)
    (pairs : List (Nat × Nat))
    (h : rotorIds.length ≠ positions.length ∨ rotorIds.length ≠ rings.length ∨
      (∃ i ∈ rotorIds, ¬ i < ROTORS.length) ∨ ¬ (plugLetters pairs).Nodup) :
    ∃ e : String, newEnigmaMachine rotorIds positions rings pairs = Except.error e := by
  unfold newEnigmaMachine
  by_cases h1 : rotorIds.length ≠ positions.length ∨ rotorIds.length ≠ rings.length
  · rw [if_pos h1]
    exact ⟨_, rfl⟩
  · rw [if_neg h1]
    by_cases h2 : ¬ rotorIds.all fun i => i < ROTORS.length
    · rw [if_pos h2]
      exact ⟨_, rfl⟩
    · rw [if_neg h2]
      have h3 : ¬ (plugLetters pairs).Nodup := by
        rcases h with h | h | h | h
        · exact absurd (Or.inl h) h1
        · exact absurd (Or.inr h) h1
        · exfalso
          rw [not_not, List.all_eq_true] at h2
          obtain ⟨i, hi, hni⟩ := h
          exact hni (by simpa using h2 i hi)
        · exact h
      rw [if_pos h3]
      exact ⟨_, rfl⟩

/-- Witness for C7: the letter A appears in two plugboard pairs, so
construction fails. -/
theorem C7_failfast_construction_witness :
    ((([0, 1, 2] : List Nat).length ≠ ([0, 0, 0] : List Nat).length ∨
        ([0, 1, 2] : List Nat).length ≠ ([0, 0, 0] : List Nat).length ∨
        (∃ i ∈ ([0, 1, 2] : List Nat), ¬ i < ROTORS.length) ∨
        ¬ (plugLetters [(0, 1), (0, 2)]).Nodup) ∧
      ∃ e : String,
        newEnigmaMachine [0, 1, 2] [0, 0, 0] [0, 0, 0] [(0, 1), (0, 2)] =
          Except.error e) :=
  ⟨by decide,
    C7_failfast_construction [0, 1, 2] [0, 0, 0] [0, 0, 0] [(0, 1), (0, 2)] (by decide)⟩

/-- C8: Case normalization — processing the uppercased input gives the same
output as processing the raw input, and no output character is a lowercase
letter. -/
theorem C8_case_normalization (cfg : Config) (p : Positions)
    (hb : ∀ q ∈ cfg.pairs, q.1 < 26 ∧ q.2 < 26) (s : String) :
    process cfg p (String.mk (s.data.map Char.toUpper)) = process cfg p s ∧
    ∀ d ∈ (process cfg p s).data, ¬(97 ≤ d.toNat ∧ d.toNat ≤ 122) := by
  have hin : ∀ c ∈ s.data.map Char.toUpper, ¬(97 ≤ c.toNat ∧ c.toNat ≤ 122) := by
    intro c hcm
    obtain ⟨a, -, rfl⟩ := List.mem_map.mp hcm
    rw [toNat_toUpper]
    by_cases h : 97 ≤ a.toNat ∧ a.toNat ≤ 122
    · rw [if_pos h]
      omega
    · rw [if_neg h]
      exact h
  constructor
  · unfold process
    show String.mk (processList cfg p ((s.data.map Char.toUpper).map Char.toUpper)).2 = _
    rw [map_toUpper_id hin]
  · show ∀ d ∈ (processList cfg p (s.data.map Char.toUpper)).2, _
    exact processList_output_upper cfg hb _ p hin

set_option maxRecDepth 8192 in
/-- Witness for C8: processing hello equals processing HELLO on the sample
machine. -/
theorem C8_case_normalization_witness :
    (∀ q ∈ sampleConfig.pairs, q.1 < 26 ∧ q.2 < 26) ∧
      process sampleConfig samplePos "HELLO" = process sampleConfig samplePos "hello" :=
  ⟨by decide, by
    have h := (C8_case_normalization sampleConfig samplePos (by decide) "hello").1
    have e : String.mk ("hello".data.map Char.toUpper) = "HELLO" := by decide
    rwa [e] at h⟩

/-- C9: Totality of process — the empty string yields the empty string and
every input string yields an output string of exactly the same length, one
output character per input character, with no failing case. -/
theorem C9_totality (cfg : Config) (p : Positions) :
    process cfg p "" = "" ∧ ∀ s : String, (process cfg p s).length = s.length := by
  constructor
  · rfl
  · intro s
    show (processList cfg p (s.data.map Char.toUpper)).2.length = s.length
    rw [processList_length, List.length_map]
    rfl

/-- C10: No self-encryption — on a valid machine an alphabetic character
never encrypts to itself, and at every rotor state the index-level transform
has no fixed point at all. -/
theorem C10_no_self_encryption (cfg : Config) (p : Positions) (hcfg : ConfigOK cfg)
    (c : Char) (hca : 65 ≤ c.toNat ∧ c.toNat ≤ 90) :
    (encryptChar cfg p c).2 ≠ c ∧ ∀ i : Nat, encryptIndex cfg p i ≠ i := by
  constructor
  · rw [encryptChar_alpha cfg p hca]
    intro h
    have he : encryptIndex cfg (stepRotors cfg p) (c.toNat - 65) < 26 :=
      encryptIndex_lt cfg (stepRotors cfg p) (c.toNat - 65) (hcfg.2.2.2.2.2.2).2
    have ht := congrArg Char.toNat h
    rw [char_toNat_ofNat (by omega)] at ht
    exact encryptIndex_ne cfg (stepRotors cfg p) hcfg (c.toNat - 65) (by omega)
  · exact fun i => encryptIndex_ne cfg p hcfg i

/-- Witness for C10: on the sample machine the letter A does not encrypt to A. -/
theorem C10_no_self_encryption_witness :
    ConfigOK sampleConfig ∧ (65 ≤ 'A'.toNat ∧ 'A'.toNat ≤ 90) ∧
      (encryptChar sampleConfig samplePos 'A').2 ≠ 'A' :=
  ⟨sampleConfig_ok, by decide,
    (C10_no_self_encryption sampleConfig samplePos sampleConfig_ok 'A' (by decide)).1⟩

end Enigma
